import Mathlib

/-!
Shallow embedding of the terminal e-mail renderer core (`src/render.rs`)
over `List Char`, together with proofs settling the frozen claims about
its specification.  Strings are modelled as `List Char`; Rust byte
lengths are modelled by summing UTF-8 sizes; Rust `Regex` passes are
hand-compiled into deterministic scanners with the same leftmost-first,
greedy semantics on the character classes that occur in the source.
-/

set_option maxHeartbeats 1000000

namespace MuttRender

/-- Strings are lists of characters. -/
abbrev Str := List Char

/-- Rust `char::is_whitespace` (Unicode White_Space property). -/
def isRustWs (c : Char) : Bool :=
  c.toNat = 0x09 || c.toNat = 0x0A || c.toNat = 0x0B || c.toNat = 0x0C ||
  c.toNat = 0x0D || c.toNat = 0x20 || c.toNat = 0x85 || c.toNat = 0xA0 ||
  c.toNat = 0x1680 || (0x2000 ≤ c.toNat && c.toNat ≤ 0x200A) ||
  c.toNat = 0x2028 || c.toNat = 0x2029 || c.toNat = 0x202F ||
  c.toNat = 0x205F || c.toNat = 0x3000

/-- Drop trailing characters satisfying `isRustWs` (structural form). -/
def dropWsEnd : Str → Str
  | [] => []
  | c :: cs =>
    let r := dropWsEnd cs
    if r = [] && isRustWs c then [] else c :: r

/-- Rust `str::trim`: strip leading and trailing Unicode whitespace. -/
def rustTrim (s : Str) : Str := dropWsEnd (s.dropWhile isRustWs)

/-- Rust `str::trim_start`. -/
def rustTrimStart (s : Str) : Str := s.dropWhile isRustWs

/-- Rust `str::len`: the UTF-8 byte length of the string. -/
def utf8Len (s : Str) : Nat := (s.map Char.utf8Size).sum

/-- `List` version of `String::starts_with`. -/
def startsWith : Str → Str → Bool
  | _, [] => true
  | [], _ :: _ => false
  | c :: cs, p :: ps => c = p && startsWith cs ps

/-- Rust `str::contains` for a literal substring. -/
def containsStr : Str → Str → Bool
  | [], p => p.isEmpty
  | s@(_ :: cs), p => startsWith s p || containsStr cs p

/-- Split at every newline character (pieces in order, no separators). -/
def splitNl : Str → List Str
  | [] => [[]]
  | c :: cs =>
    if c = '\n' then [] :: splitNl cs
    else
      match splitNl cs with
      | p :: ps => (c :: p) :: ps
      | [] => [[c]]

/-- Strip one trailing carriage return, as Rust `str::lines` does per line. -/
def stripCr (l : Str) : Str :=
  if l.getLast? = some '\r' then l.dropLast else l

/-- Rust `str::lines`: split on newline, drop a final empty segment,
strip one trailing CR from each line. -/
def rustLines (s : Str) : List Str :=
  if s = [] then []
  else
    (if (splitNl s).getLast? = some [] then (splitNl s).dropLast
     else splitNl s).map stripCr

/-- Join lines with a newline separator (`Vec::join("\n")`). -/
def joinNl : List Str → Str
  | [] => []
  | [l] => l
  | l :: ls => l ++ '\n' :: joinNl ls

/-- Rust `str::split_whitespace`: maximal nonblank runs. -/
def splitWs : Str → List Str
  | [] => []
  | c :: cs =>
    if isRustWs c then splitWs cs
    else
      match splitWs cs with
      | [] => [[c]]
      | w :: ws =>
        match cs with
        | [] => [[c]]
        | d :: _ => if isRustWs d then [c] :: w :: ws else (c :: w) :: ws

/-- Charwise lowercasing, modelling `str::to_lowercase` (the sniff
patterns are ASCII, where charwise agrees with the Rust function). -/
def toLowerStr (s : Str) : Str := s.map Char.toLower

-- ANSI color codes from the source.
def RESET : Str := "\x1b[0m".data
def BOLD : Str := "\x1b[1m".data
def CYAN : Str := "\x1b[36m".data
def YELLOW : Str := "\x1b[33m".data
def DIM : Str := "\x1b[2m".data

/-- The invisible characters removed by the cleanup passes. -/
def invisibles : List Char :=
  [Char.ofNat 0x034F, Char.ofNat 0x200B, Char.ofNat 0x200C,
   Char.ofNat 0x200D, Char.ofNat 0xFEFF]

/-- The five chained `String::replace(ch, "")` calls. -/
def removeInvisible (s : Str) : Str := s.filter (fun c => !invisibles.contains c)

/-- `is_table_row` from the source: heuristic detection of a
`Label:    value` line. -/
def is_table_row (line : Str) : Bool :=
  let trimmed := rustTrim line
  if trimmed.isEmpty || utf8Len trimmed < 15 then false
  else if trimmed.contains ':' then
    let label := trimmed.takeWhile (fun c => c ≠ ':')
    let after_colon := (trimmed.dropWhile (fun c => c ≠ ':')).tail
    let has_gap := startsWith after_colon "  ".data || startsWith after_colon " \t".data
    let has_value := !(rustTrim after_colon).isEmpty
    let valid_label := decide (3 ≤ utf8Len label) && decide (utf8Len label ≤ 30) &&
      !containsStr label "//".data && !containsStr label "@".data
    has_gap && has_value && valid_label
  else false

/-- ASCII approximation of Rust `char::is_alphabetic`; the inputs the
claims evaluate are ASCII, where the two agree. -/
def rustIsAlphabetic (c : Char) : Bool := c.isAlpha

/-- Charwise approximation of `str::to_uppercase` (agrees on ASCII). -/
def rustToUpper (c : Char) : Char := c.toUpper

/-- `is_header` from the source: centered or all-caps short lines. -/
def is_header (line : Str) : Bool :=
  let trimmed := rustTrim line
  if trimmed.isEmpty || 60 < utf8Len trimmed then false
  else
    let leading := utf8Len line - utf8Len (rustTrimStart line)
    let is_centered := decide (10 < leading) && decide (utf8Len trimmed < 50)
    let words := splitWs trimmed
    let is_all_caps := decide (2 ≤ words.length) && words.all (fun w =>
      let letters := w.filter rustIsAlphabetic
      decide (2 ≤ utf8Len letters) && letters == letters.map rustToUpper)
    is_centered || is_all_caps

/-- `visual_width` from the source: the codepoint count. -/
def visualWidth (s : Str) : Nat := s.length

/-- The label test inside `format_table_row`: byte length above one and
an alphabetic first character. -/
def labelCond (w : Str) : Bool :=
  decide (1 < utf8Len w) &&
    (match w.head? with
     | some ch => rustIsAlphabetic ch
     | none => false)

/-- The character loop of `format_table_row`: `cw` is `current_word`. -/
def ftGo : Str → Str → Str
  | [], cw => cw
  | c :: cs, cw =>
    let cw2 := cw ++ [c]
    if c = ':' && !(rustTrim cw2).isEmpty && labelCond (rustTrim cw2) then
      YELLOW ++ rustTrim cw2 ++ RESET ++ ftGo cs []
    else if c = ' ' || c = '\t' then
      cw2 ++ ftGo cs []
    else ftGo cs cw2

/-- `format_table_row` from the source: color `word:` labels yellow. -/
def format_table_row (line : Str) : Str := ftGo line []

/-- The `max().unwrap_or(0)` of the visual widths in `format_table`. -/
def tableMaxLen (lines : List Str) : Nat :=
  (lines.map visualWidth).foldr Nat.max 0

/-- `format_table` from the source, producing the output lines of the
bordered block (the source then joins them with newlines). -/
def formatTableLines (lines : List Str) : List Str :=
  let box_width := tableMaxLen lines + 2
  let top := DIM ++ ['┌'] ++ List.replicate box_width '─' ++ ['┐'] ++ RESET
  let rows := lines.map (fun l =>
    DIM ++ ['│'] ++ RESET ++ [' '] ++ format_table_row l ++
      List.replicate (box_width - visualWidth l - 1) ' ' ++ DIM ++ ['│'] ++ RESET)
  let bot := DIM ++ ['└'] ++ List.replicate box_width '─' ++ ['┘'] ++ RESET
  top :: rows ++ [bot]

/-- The header / section-title / plain coloring of a single line in
`add_colors`. -/
def colorLine (line : Str) : Str :=
  if is_header line then BOLD ++ CYAN ++ line ++ RESET
  else if (rustTrim line).getLast? = some ':' &&
      decide (utf8Len (rustTrim line) < 50) && !containsStr line "  ".data then
    BOLD ++ YELLOW ++ line ++ RESET
  else line

/-- The inner `while` of `add_colors` collecting a table block: returns
the retained rows (blank lines dropped) and the remaining lines. -/
def collectTable : List Str → List Str × List Str
  | [] => ([], [])
  | l :: ls =>
    if is_table_row l || (rustTrim l).isEmpty then
      let r := collectTable ls
      ((if (rustTrim l).isEmpty then r.1 else l :: r.1), r.2)
    else ([], l :: ls)

def collectTable_len (ls : List Str) :
    (collectTable ls).1.length + (collectTable ls).2.length ≤ ls.length := by
  induction ls with
  | nil => simp [collectTable]
  | cons l ls ih =>
    simp only [collectTable]
    split
    · split <;> simp only [List.length_cons] <;> omega
    · simp

def collectTable_rest_le (ls : List Str) :
    (collectTable ls).2.length ≤ ls.length := by
  have := collectTable_len ls
  omega

/-- The main scan of `add_colors`, producing the output lines: table
blocks of at least two retained rows become bordered boxes, other lines
are colored individually. -/
def addColorsLines : List Str → List Str
  | [] => []
  | l :: ls =>
    if is_table_row l then
      if 2 ≤ (l :: (collectTable ls).1).length then
        formatTableLines (l :: (collectTable ls).1) ++
          addColorsLines (collectTable ls).2
      else colorLine l :: addColorsLines ls
    else colorLine l :: addColorsLines ls
  termination_by ls => ls.length
  decreasing_by
  all_goals first
  | exact Nat.lt_succ_self _
  | exact Nat.lt_succ_of_le (collectTable_rest_le _)

/-- The number of table blocks rendered by the `add_colors` scan. -/
def blockCount : List Str → Nat
  | [] => 0
  | l :: ls =>
    if is_table_row l then
      if 2 ≤ (l :: (collectTable ls).1).length then
        1 + blockCount (collectTable ls).2
      else blockCount ls
    else blockCount ls
  termination_by ls => ls.length
  decreasing_by
  all_goals first
  | exact Nat.lt_succ_self _
  | exact Nat.lt_succ_of_le (collectTable_rest_le _)

/-- `add_colors` from the source: split into lines, scan, rejoin. -/
def add_colors (text : Str) : Str := joinNl (addColorsLines (rustLines text))

def dropWhile_len_le (p : Char → Bool) (l : Str) :
    (l.dropWhile p).length ≤ l.length := by
  induction l with
  | nil => simp
  | cons c cs ih =>
    by_cases h : p c = true <;> simp [List.dropWhile, h] <;> omega

def startsWith_length {s p : Str} (h : startsWith s p = true) :
    p.length ≤ s.length := by
  induction p generalizing s with
  | nil => simp
  | cons a as ih =>
    cases s with
    | nil => simp [startsWith] at h
    | cons c cs =>
      simp only [startsWith, Bool.and_eq_true] at h
      simpa using ih h.2

/-- A leftmost match attempt of `https?://X{40,}` at the head of `s`,
where `X` is the character class `p` and `{40,}` is greedy; returns the
remainder after the match. -/
def matchUrl (p : Char → Bool) (s : Str) : Option Str :=
  if startsWith s "https://".data then
    if 40 ≤ ((s.drop 8).takeWhile p).length then some ((s.drop 8).dropWhile p)
    else none
  else if startsWith s "http://".data then
    if 40 ≤ ((s.drop 7).takeWhile p).length then some ((s.drop 7).dropWhile p)
    else none
  else none

def matchUrl_some_len {p : Char → Bool} {s r : Str}
    (h : matchUrl p s = some r) : r.length < s.length := by
  unfold matchUrl at h
  split at h
  · rename_i hsw
    have h8 : 8 ≤ s.length := by simpa using startsWith_length hsw
    split at h
    · have hl := dropWhile_len_le p (s.drop 8)
      simp only [Option.some.injEq] at h
      subst h
      simp only [List.length_drop] at hl ⊢
      omega
    · cases h
  · split at h
    · rename_i hdummy hsw
      have h7 : 7 ≤ s.length := by simpa using startsWith_length hsw
      split at h
      · have hl := dropWhile_len_le p (s.drop 7)
        simp only [Option.some.injEq] at h
        subst h
        simp only [List.length_drop] at hl ⊢
        omega
      · cases h
    · cases h

/-- `Regex::replace_all` of `https?://X{40,}` with the empty string:
scan left to right, delete each leftmost match. -/
def stripUrlsWith (p : Char → Bool) : Str → Str
  | [] => []
  | c :: cs =>
    match h : matchUrl p (c :: cs) with
    | some rest => stripUrlsWith p rest
    | none => c :: stripUrlsWith p cs
  termination_by s => s.length
  decreasing_by
  · exact matchUrl_some_len h
  · exact Nat.lt_succ_self _

/-- The character class `[^\s]` of `strip_long_urls`. -/
def urlWsBody (c : Char) : Bool := !isRustWs c

/-- The character class `[^\s\)\]]` of the long-URL pass inside
`clean_markdown`. -/
def mdUrlBody (c : Char) : Bool := !isRustWs c && c ≠ ')' && c ≠ ']'

/-- `strip_long_urls` from the source. -/
def strip_long_urls (s : Str) : Str := stripUrlsWith urlWsBody s

/-- The long-bare-URL removal sub-step inside `clean_markdown`. -/
def mdLongUrlStep (s : Str) : Str := stripUrlsWith mdUrlBody s

/-- The `Regex \n{3,} → "\n\n"` replace-all, as a state machine counting
pending consecutive newlines (a maximal run of three or more newlines is
emitted as exactly two). -/
def collapseGo : Nat → Str → Str
  | n, [] => List.replicate (min n 2) '\n'
  | n, c :: cs =>
    if c = '\n' then collapseGo (n + 1) cs
    else List.replicate (min n 2) '\n' ++ c :: collapseGo 0 cs

/-- The blank-line collapse step shared by `clean_text` and
`clean_markdown`. -/
def collapseNl (s : Str) : Str := collapseGo 0 s

/-- Whether the string contains three consecutive newline characters. -/
def has3 : Str → Bool
  | [] => false
  | c :: cs => (c = '\n' && startsWith cs "\n\n".data) || has3 cs

/-- The HTML sniff of `render`. -/
def isHtmlSniff (s : Str) : Bool :=
  containsStr (toLowerStr s) "<html".data ||
  containsStr (toLowerStr s) "<body".data ||
  containsStr (toLowerStr s) "<!doctype".data

/-- `render_plain` from the source. -/
def render_plain (text : Str) (strip_urls : Bool) : Str :=
  if strip_urls then strip_long_urls text else text

/-- `clean_text` from the source (the lightweight cleanup applied to the
text produced by the HTML branch). -/
def clean_text (text : Str) (strip_urls : Bool) : Str :=
  rustTrim (add_colors (collapseNl (removeInvisible
    (if strip_urls then strip_long_urls text else text))))

/-- Earliest occurrence of `\n---` (the lazy middle of the frontmatter
regex), with the optional trailing newline consumed. -/
def findClose : Str → Option Str
  | [] => none
  | c :: cs =>
    if startsWith (c :: cs) "\n---".data then
      match (c :: cs).drop 4 with
      | '\n' :: t => some t
      | r => some r
    else findClose cs

/-- A match of `(?m)^---\n[\s\S]*?\n---\n?` starting at this line-start
position; returns the remainder after the match. -/
def fmMatchAt (s : Str) : Option Str :=
  if startsWith s "---\n".data then findClose (s.drop 4) else none

/-- `Regex::replace` (first occurrence only) of the frontmatter pattern:
walk the line starts of the text. -/
def fmGo : Str → Str
  | [] => []
  | c :: cs =>
    match fmMatchAt (c :: cs) with
    | some rest => rest
    | none =>
      match h : (c :: cs).dropWhile (fun x => x ≠ '\n') with
      | [] => c :: cs
      | _ :: tail => (c :: cs).takeWhile (fun x => x ≠ '\n') ++ '\n' :: fmGo tail
  termination_by s => s.length
  decreasing_by
  · have h1 : ((c :: cs).dropWhile (fun x => x ≠ '\n')).length ≤ (c :: cs).length :=
      dropWhile_len_le _ _
    rw [h] at h1
    simp only [List.length_cons] at h1 ⊢
    omega

/-- `Regex::replace_all` of `(?m)^---$\n?`: drop every line that is
exactly `---`. -/
def dashesGo : Str → Str
  | [] => []
  | c :: cs =>
    if startsWith (c :: cs) "---\n".data then dashesGo ((c :: cs).drop 4)
    else if c :: cs = "---".data then []
    else
      match h : (c :: cs).dropWhile (fun x => x ≠ '\n') with
      | [] => c :: cs
      | _ :: tail => (c :: cs).takeWhile (fun x => x ≠ '\n') ++ '\n' :: dashesGo tail
  termination_by s => s.length
  decreasing_by
  · simp only [List.length_cons, List.length_drop]
    omega
  · have h1 : ((c :: cs).dropWhile (fun x => x ≠ '\n')).length ≤ (c :: cs).length :=
      dropWhile_len_le _ _
    rw [h] at h1
    simp only [List.length_cons] at h1 ⊢
    omega

/-- URL test for `\[([^\]]+)\]\(https?://[^)]+\)`: the captured span up
to the closing parenthesis must be a scheme plus at least one character. -/
def httpUrlOk (u : Str) : Bool :=
  (startsWith u "https://".data && decide (8 < u.length)) ||
  (startsWith u "http://".data && decide (7 < u.length))

/-- URL test for `\[([^\]]+)\]\(mailto:[^)]+\)`. -/
def mailtoUrlOk (u : Str) : Bool :=
  startsWith u "mailto:".data && decide (7 < u.length)

/-- Match `\[([^\]]+)\]\(…\)` at the head of the string, with `urlOk`
deciding the parenthesised part; returns the capture (the replacement)
and the remainder after the match. -/
def linkMatchAt (urlOk : Str → Bool) : Str → Option (Str × Str)
  | '[' :: cs =>
    if (cs.takeWhile (fun x => x ≠ ']')).isEmpty then none
    else
      match cs.dropWhile (fun x => x ≠ ']') with
      | ']' :: '(' :: r2 =>
        if urlOk (r2.takeWhile (fun x => x ≠ ')')) then
          match r2.dropWhile (fun x => x ≠ ')') with
          | ')' :: rest => some (cs.takeWhile (fun x => x ≠ ']'), rest)
          | _ => none
        else none
      | _ => none
  | _ => none

def linkMatchAt_some_len {urlOk : Str → Bool} {s : Str} {rep rest : Str}
    (h : linkMatchAt urlOk s = some (rep, rest)) : rest.length < s.length := by
  unfold linkMatchAt at h
  split at h
  case h_2 => exact absurd h (by simp)
  rename_i cs heq
  split at h
  · exact absurd h (by simp)
  · split at h
    case h_2 => exact absurd h (by simp)
    rename_i r2 hdrop
    split at h
    · split at h
      case h_2 => exact absurd h (by simp)
      rename_i rest0 hdrop2
      have hr : rest = rest0 := by
        simp only [Option.some.injEq, Prod.mk.injEq] at h
        exact h.2.symm
      have l1 : (heq.dropWhile (fun x => decide (x ≠ ']'))).length ≤ heq.length :=
        dropWhile_len_le _ _
      have l2 : (r2.dropWhile (fun x => decide (x ≠ ')'))).length ≤ r2.length :=
        dropWhile_len_le _ _
      subst hr
      rw [hdrop] at l1
      rw [hdrop2] at l2
      simp only [List.length_cons] at l1 l2 ⊢
      omega
    · exact absurd h (by simp)

/-- `Regex::replace_all` of a bracket-link pattern with its capture. -/
def linkScan (urlOk : Str → Bool) : Str → Str
  | [] => []
  | c :: cs =>
    match h : linkMatchAt urlOk (c :: cs) with
    | some (rep, rest) => rep ++ linkScan urlOk rest
    | none => c :: linkScan urlOk cs
  termination_by s => s.length
  decreasing_by
  · exact linkMatchAt_some_len h
  · exact Nat.lt_succ_self _

/-- Match `<https?://[^>]+>` at the head; returns the remainder. -/
def bareMatchAt : Str → Option Str
  | '<' :: cs =>
    if (startsWith (cs.takeWhile (fun x => x ≠ '>')) "https://".data &&
          decide (8 < (cs.takeWhile (fun x => x ≠ '>')).length)) ||
        (startsWith (cs.takeWhile (fun x => x ≠ '>')) "http://".data &&
          decide (7 < (cs.takeWhile (fun x => x ≠ '>')).length)) then
      match cs.dropWhile (fun x => x ≠ '>') with
      | '>' :: rest => some rest
      | _ => none
    else none
  | _ => none

def bareMatchAt_some_len {s rest : Str} (h : bareMatchAt s = some rest) :
    rest.length < s.length := by
  unfold bareMatchAt at h
  split at h
  case h_2 => exact absurd h (by simp)
  rename_i cs heq
  split at h
  · split at h
    case h_2 => exact absurd h (by simp)
    rename_i rest0 hdrop
    have hr : rest = rest0 := by simpa using h.symm
    subst hr
    have l1 : (heq.dropWhile (fun x => decide (x ≠ '>'))).length ≤ heq.length :=
      dropWhile_len_le _ _
    rw [hdrop] at l1
    simp only [List.length_cons] at l1 ⊢
    omega
  · exact absurd h (by simp)

/-- `Regex::replace_all` of `<https?://[^>]+>` with the empty string. -/
def bareScan : Str → Str
  | [] => []
  | c :: cs =>
    match h : bareMatchAt (c :: cs) with
    | some rest => bareScan rest
    | none => c :: bareScan cs
  termination_by s => s.length
  decreasing_by
  · exact bareMatchAt_some_len h
  · exact Nat.lt_succ_self _

/-- Per-line rewrite for `^(-\s*)\|\s*([^|]+?)\s*\|$` (list item holding
a single-cell table row). -/
def listCellLineMap (line : Str) : Str :=
  match line with
  | '-' :: rest =>
    match rest.dropWhile isRustWs with
    | '|' :: inner =>
      if inner.getLast? = some '|' && !inner.dropLast.isEmpty &&
          !inner.dropLast.contains '|' then
        let txt := rustTrim inner.dropLast
        if txt.isEmpty || txt.all (fun c => c = '-' || c = ' ') then []
        else ('-' :: rest.takeWhile isRustWs) ++ "**".data ++ txt ++ "**".data
      else line
    | _ => line
  | _ => line

/-- Per-line rewrite for `^\|\s*([^|]+?)\s*\|$` (standalone single-cell
table row). -/
def singleCellLineMap (line : Str) : Str :=
  match line with
  | '|' :: inner =>
    if inner.getLast? = some '|' && !inner.dropLast.isEmpty &&
        !inner.dropLast.contains '|' then
      let txt := rustTrim inner.dropLast
      if txt.isEmpty || txt.all (fun c => c = '-' || c = ' ') then []
      else "**".data ++ txt ++ "**".data
    else line
  | _ => line

/-- `Regex::replace_all` of `\|\s*\|` with `"|"`, as a state machine:
`some buf` means a `|` was just emitted and `buf` holds the whitespace
seen since (a pending half-match). -/
def ecGo : Option Str → Str → Str
  | none, [] => []
  | some buf, [] => buf
  | none, c :: cs =>
    if c = '|' then '|' :: ecGo (some []) cs else c :: ecGo none cs
  | some buf, c :: cs =>
    if c = '|' then ecGo none cs
    else if isRustWs c then ecGo (some (buf ++ [c])) cs
    else buf ++ c :: ecGo none cs

/-- One line matching `^-?\s*\|\s*\|?\s*$` (an empty table remnant):
an optional dash, whitespace, a pipe, whitespace, an optional second
pipe, and trailing whitespace only. -/
def emptyTableLine (line : Str) : Bool :=
  let s1 := if line.head? = some '-' then line.tail else line
  let s2 := s1.dropWhile isRustWs
  if s2.head? = some '|' then
    let r2 := s2.tail.dropWhile isRustWs
    let r3 := if r2.head? = some '|' then r2.tail else r2
    (r3.dropWhile isRustWs).isEmpty
  else false

/-- `^\|\s*[-:]+\s*\|` (a markdown table separator row start). -/
def tableSepMatch (line : Str) : Bool :=
  match line with
  | '|' :: r =>
    let r2 := r.dropWhile isRustWs
    !(r2.takeWhile (fun c => c = '-' || c = ':')).isEmpty &&
      match (r2.dropWhile (fun c => c = '-' || c = ':')).dropWhile isRustWs with
      | '|' :: _ => true
      | _ => false
  | _ => false

/-- The stateful separator-dedup filter of `clean_markdown`: `inTable`
and `hadSep` mirror the two mutable flags of the source closure. -/
def sepGo : List Str → Bool → Bool → List Str
  | [], _, _ => []
  | l :: ls, inTable, hadSep =>
    let isRow := l.head? = some '|' && l.getLast? = some '|'
    let isSep := tableSepMatch l && decide (2 < (l.filter (fun c => c = '-')).length)
    if isRow then
      if isSep then
        if inTable && hadSep then sepGo ls inTable hadSep
        else l :: sepGo ls true true
      else l :: sepGo ls true hadSep
    else l :: sepGo ls false false

/-- `clean_markdown` from the source: the full eleven-step cleanup. -/
def clean_markdown (md : Str) (strip_urls : Bool) : Str :=
  let o := fmGo md
  let o := dashesGo o
  let o := if strip_urls then
      linkScan mailtoUrlOk (mdLongUrlStep (bareScan (linkScan httpUrlOk o)))
    else o
  let o := joinNl ((rustLines o).map listCellLineMap)
  let o := joinNl ((rustLines o).map singleCellLineMap)
  let o := ecGo none o
  let o := joinNl ((rustLines o).filter (fun l => !emptyTableLine l))
  let o := removeInvisible o
  let o := joinNl (sepGo (rustLines o) false false)
  let o := collapseNl o
  rustTrim o

/-- `render_html`, with the two conversion strategies as oracles: `w3m
h = some t` models a successful external `w3m -dump` run producing `t`
(`none` models spawn failure or nonzero exit, whose error value the
source discards), and `conv` models `html_to_markdown_rs::convert`,
whose error is propagated by `?`. -/
def render_html {E : Type} (w3m : Str → Option Str) (conv : Str → Except E Str)
    (html : Str) (strip_urls : Bool) : Except E Str :=
  match w3m html with
  | some text => Except.ok (clean_text text strip_urls)
  | none =>
    match conv html with
    | Except.error e => Except.error e
    | Except.ok md => Except.ok (clean_text (clean_markdown md strip_urls) strip_urls)

/-- `render` from the source. -/
def render {E : Type} (w3m : Str → Option Str) (conv : Str → Except E Str)
    (html : Str) (strip_urls : Bool) : Except E Str :=
  if isHtmlSniff html then render_html w3m conv html strip_urls
  else Except.ok (render_plain html strip_urls)

/-- Delete every ANSI SGR escape sequence `ESC [ … m` from a string, as
a state machine: state 0 is plain text, state 1 follows a lone ESC,
state 2 is inside an escape sequence (waiting for the final `m`). -/
def saGo : Nat → Str → Str
  | 1, [] => ['\x1b']
  | _, [] => []
  | 0, c :: cs => if c = '\x1b' then saGo 1 cs else c :: saGo 0 cs
  | 1, c :: cs =>
    if c = '[' then saGo 2 cs
    else '\x1b' :: (if c = '\x1b' then saGo 1 cs else c :: saGo 0 cs)
  | _, c :: cs => if c = 'm' then saGo 0 cs else saGo 2 cs

/-- Remove every ANSI SGR escape sequence from a string. -/
def stripAnsi (s : Str) : Str := saGo 0 s

/-!  Spec-side definitions.  The following predicates transcribe the
spec's four TableRow conditions word by word; they exist to be compared
with `is_table_row`, which is transcribed from the source. -/

/-- Spec condition 1: the trimmed line has (byte) length at least 15. -/
def specTrLen (line : Str) : Prop := 15 ≤ utf8Len (rustTrim line)

/-- Spec condition 2: the (trimmed) line contains a colon. -/
def specTrColon (line : Str) : Prop := ':' ∈ rustTrim line

/-- The label: the text before the first colon of the trimmed line. -/
def specLabel (line : Str) : Str :=
  (rustTrim line).takeWhile (fun c => c ≠ ':')

/-- The text after the first colon of the trimmed line. -/
def specAfter (line : Str) : Str :=
  ((rustTrim line).dropWhile (fun c => c ≠ ':')).tail

/-- Spec condition 3: the label has length in `[3,30]` and contains
neither `//` nor `@`. -/
def specTrLabel (line : Str) : Prop :=
  3 ≤ utf8Len (specLabel line) ∧ utf8Len (specLabel line) ≤ 30 ∧
  containsStr (specLabel line) "//".data = false ∧
  containsStr (specLabel line) "@".data = false

/-- Spec condition 4: the text after the colon has a whitespace gap (a
space followed by at least one more space, or a space followed by a
tab) before nonblank content. -/
def specTrGap (line : Str) : Prop :=
  (startsWith (specAfter line) "  ".data = true ∨
   startsWith (specAfter line) " \t".data = true) ∧
  rustTrim (specAfter line) ≠ []

/-- The character-only safety condition under which every structural
cleanup pass of `clean_markdown` is the identity: the string contains no
pipe, dash, bracket, angle bracket, slash, carriage return, and none of
the invisible characters. -/
def mdSafeChar (c : Char) : Bool :=
  !(c = '|' || c = '-' || c = '[' || c = '<' || c = '/' || c = '\r' ||
    invisibles.contains c)

/-- One `lines()` / `join("\n")` round trip, as performed by each
per-line pass of `clean_markdown`. -/
def nstep (s : Str) : Str := joinNl (rustLines s)

/-!  Theorems. -/

theorem utf8Len_nil : utf8Len [] = 0 := rfl

theorem utf8Len_isEmpty {s : Str} (h : s.isEmpty = true) : utf8Len s = 0 := by
  cases s with
  | nil => rfl
  | cons c cs => simp at h

/-- C4: a line is classified a table row exactly when the spec's four
conditions hold: trimmed length at least 15, a colon is present, the
label before the first colon has length in `[3,30]` without `//` or `@`,
and the text after the colon has a space-plus-space-or-tab gap before
nonblank content. -/
theorem isEmpty_false_iff {s : Str} : s.isEmpty = false ↔ s ≠ [] := by
  cases s <;> simp

theorem is_table_row_iff_spec (line : Str) :
    is_table_row line = true ↔
      specTrLen line ∧ specTrColon line ∧ specTrLabel line ∧ specTrGap line := by
  unfold is_table_row specTrLen specTrColon specTrLabel specTrGap specLabel specAfter
  dsimp only
  split
  · rename_i hsh
    simp only [Bool.false_eq_true, false_iff]
    rintro ⟨h15, -⟩
    rcases Bool.or_eq_true _ _ |>.mp hsh with he | hlt
    · rw [utf8Len_isEmpty he] at h15
      omega
    · have := of_decide_eq_true hlt
      omega
  · rename_i hsh
    have h15 : 15 ≤ utf8Len (rustTrim line) := by
      rcases Nat.lt_or_ge (utf8Len (rustTrim line)) 15 with h | h
      · exact absurd (by simp [h]) hsh
      · exact h
    split
    · rename_i hcol
      have hmem : ':' ∈ rustTrim line := by
        simpa using hcol
      simp only [Bool.and_eq_true, Bool.or_eq_true, Bool.not_eq_true',
        decide_eq_true_eq, isEmpty_false_iff]
      constructor
      · intro h
        tauto
      · intro h
        tauto
    · rename_i hcol
      simp only [Bool.false_eq_true, false_iff]
      rintro ⟨-, hmem, -⟩
      exact absurd (by simpa using hmem) hcol

theorem mem_le_tableMaxLen {lines : List Str} {l : Str} (h : l ∈ lines) :
    visualWidth l ≤ tableMaxLen lines := by
  unfold tableMaxLen
  induction lines with
  | nil => cases h
  | cons a as ih =>
    simp only [List.map_cons, List.foldr_cons]
    rcases List.mem_cons.mp h with rfl | hm
    · exact Nat.le_max_left _ _
    · exact Nat.le_trans (ih hm) (Nat.le_max_right _ _)

/-- C8: in `format_table` the padding subtraction
`box_width - visual_width(row) - 1` never underflows, because the box
width is the maximum row width plus two; the classification, cleanup and
layout functions themselves are total Lean functions by construction. -/
theorem format_table_padding_safe (lines : List Str) (l : Str) (h : l ∈ lines) :
    visualWidth l + 1 ≤ tableMaxLen lines + 2 := by
  have := mem_le_tableMaxLen h
  omega

theorem format_table_padding_safe_witness :
    "ab".data ∈ ["ab".data, "c".data] ∧
      visualWidth "ab".data + 1 ≤ tableMaxLen ["ab".data, "c".data] + 2 :=
  ⟨by decide, format_table_padding_safe _ _ (by decide)⟩

/-- C2 counterexample: on the plain path `render` applies no
leading/trailing whitespace trimming: the untrimmed input comes back
verbatim, and it differs from its trimmed form. -/
theorem render_plain_no_trim_cex :
    render (fun _ => none) (fun _ => Except.error ()) "  hello  ".data false =
      Except.ok "  hello  ".data ∧
    rustTrim "  hello  ".data ≠ "  hello  ".data := by
  exact ⟨rfl, by decide⟩

/-- C2 (amended): for every input not matching the HTML sniff, `render`
returns Ok of the input transformed only by URL-stripping when
`strip_urls` is true, and returns the input unchanged otherwise; no
trimming, table, header or coloring logic applies on this path. -/
theorem render_plain_path {E : Type} (w3m : Str → Option Str)
    (conv : Str → Except E Str) (s : Str) (strip_urls : Bool)
    (h : isHtmlSniff s = false) :
    render w3m conv s strip_urls =
      Except.ok (if strip_urls then strip_long_urls s else s) := by
  unfold render render_plain
  rw [h]
  simp

theorem render_plain_path_witness :
    isHtmlSniff "hi there".data = false ∧
    render (fun _ => none) (fun _ => Except.error ()) "hi there".data false =
      Except.ok (if false then strip_long_urls "hi there".data
                 else "hi there".data) :=
  ⟨by decide, render_plain_path _ _ _ _ (by decide)⟩

/-- C3: on the HTML path, `render` returns an error exactly when the
external renderer fails and the in-process conversion also fails, and in
that case the conversion error itself is propagated; whenever either
strategy succeeds the result is Ok. -/
theorem render_err_iff {E : Type} (w3m : Str → Option Str)
    (conv : Str → Except E Str) (s : Str) (strip_urls : Bool)
    (h : isHtmlSniff s = true) :
    ((∃ e, render w3m conv s strip_urls = Except.error e) ↔
      w3m s = none ∧ ∃ e, conv s = Except.error e) ∧
    (∀ e, w3m s = none → conv s = Except.error e →
      render w3m conv s strip_urls = Except.error e) := by
  unfold render render_html
  rw [h]
  cases hw : w3m s with
  | some t => simp [hw]
  | none =>
    cases hc : conv s with
    | error e => simp [hc]
    | ok md => simp [hc]

theorem render_err_iff_witness :
    isHtmlSniff "<html>".data = true ∧
    render (fun _ => none) (fun _ => Except.error ()) "<html>".data false =
      Except.error () :=
  ⟨by decide,
   (render_err_iff (fun _ => none) (fun _ => Except.error ())
      "<html>".data false (by decide)).2 () rfl rfl⟩

/-- C1 counterexample: this input does not match the HTML sniff, so
`render` takes the plain path and returns it unchanged with no bordered
table; in particular no `┌` appears in the output. -/
theorem render_roundtrip_cex :
    render (fun _ => none) (fun _ => Except.error ())
        "Label:    Value one\nLabel2:   Value two".data false =
      Except.ok "Label:    Value one\nLabel2:   Value two".data ∧
    '┌' ∉ "Label:    Value one\nLabel2:   Value two".data := by
  exact ⟨rfl, by decide⟩

theorem addColorsLines_example_eval :
    addColorsLines ["Label:    Value one".data, "Label2:   Value two".data] =
      formatTableLines ["Label:    Value one".data, "Label2:   Value two".data] := by
  simp only [addColorsLines, collectTable]
  norm_num [show is_table_row "Label:    Value one".data = true from by decide,
            show is_table_row "Label2:   Value two".data = true from by decide,
            show (rustTrim "Label2:   Value two".data).isEmpty = false from by decide]
  rw [show addColorsLines [] = [] from by simp only [addColorsLines]]

/-- C1 (amended): the bordered-table round trip holds for the
layout/coloring step `add_colors` (reached via `clean_text` on the HTML
path) rather than for `render` on the plain path: both lines are
classified table rows, grouped into one block, and the output is the
`┌…┐` top border, two `│`-bordered rows with the labels wrapped in the
yellow color code, and the `└…┘` bottom border. -/
theorem add_colors_roundtrip :
    is_table_row "Label:    Value one".data = true ∧
    is_table_row "Label2:   Value two".data = true ∧
    add_colors "Label:    Value one\nLabel2:   Value two".data =
      ("\x1b[2m┌─────────────────────┐\x1b[0m\n\x1b[2m│\x1b[0m \x1b[33mLabel:\x1b[0m    Value one \x1b[2m│\x1b[0m\n\x1b[2m│\x1b[0m \x1b[33mLabel2:\x1b[0m   Value two \x1b[2m│\x1b[0m\n\x1b[2m└─────────────────────┘\x1b[0m").data := by
  refine ⟨by decide, by decide, ?_⟩
  unfold add_colors
  rw [show rustLines "Label:    Value one\nLabel2:   Value two".data =
      ["Label:    Value one".data, "Label2:   Value two".data] from by decide]
  rw [addColorsLines_example_eval]
  decide

theorem formatTableLines_length (lines : List Str) :
    (formatTableLines lines).length = lines.length + 2 := by
  simp [formatTableLines]

theorem addColorsLines_le_aux :
    ∀ n (ls : List Str), ls.length ≤ n →
      (addColorsLines ls).length ≤ ls.length + 2 * blockCount ls := by
  intro n
  induction n with
  | zero =>
    intro ls h
    have hnil : ls = [] := by
      cases ls with
      | nil => rfl
      | cons a as => simp at h
    subst hnil
    simp [addColorsLines, blockCount]
  | succ n ih =>
    intro ls hlen
    cases ls with
    | nil => simp [addColorsLines, blockCount]
    | cons l ls2 =>
      simp only [List.length_cons] at hlen
      by_cases htr : is_table_row l = true
      · by_cases hl2 : 2 ≤ (l :: (collectTable ls2).1).length
        · rw [show addColorsLines (l :: ls2) =
              formatTableLines (l :: (collectTable ls2).1) ++
                addColorsLines (collectTable ls2).2 from by
            simp only [addColorsLines]
            rw [if_pos htr, if_pos hl2]]
          rw [show blockCount (l :: ls2) = 1 + blockCount (collectTable ls2).2 from by
            simp only [blockCount]
            rw [if_pos htr, if_pos hl2]]
          have hrest := collectTable_len ls2
          have hih := ih (collectTable ls2).2 (by omega)
          rw [List.length_append, formatTableLines_length]
          simp only [List.length_cons]
          omega
        · rw [show addColorsLines (l :: ls2) = colorLine l :: addColorsLines ls2 from by
            simp only [addColorsLines]
            rw [if_pos htr, if_neg hl2]]
          rw [show blockCount (l :: ls2) = blockCount ls2 from by
            simp only [blockCount]
            rw [if_pos htr, if_neg hl2]]
          have hih := ih ls2 (by omega)
          simp only [List.length_cons]
          omega
      · rw [show addColorsLines (l :: ls2) = colorLine l :: addColorsLines ls2 from by
          simp only [addColorsLines]
          rw [if_neg htr]]
        rw [show blockCount (l :: ls2) = blockCount ls2 from by
          simp only [blockCount]
          rw [if_neg htr]]
        have hih := ih ls2 (by omega)
        simp only [List.length_cons]
        omega

/-- C6 counterexample: the layout/coloring step can increase the logical
line count: a two-line table block renders as four lines (two rows plus
two borders). -/
theorem add_colors_line_count_cex :
    ¬ ((rustLines (add_colors "Label:    Value one\nLabel2:   Value two".data)).length ≤
        (rustLines "Label:    Value one\nLabel2:   Value two".data).length) := by
  unfold add_colors
  rw [show rustLines "Label:    Value one\nLabel2:   Value two".data =
      ["Label:    Value one".data, "Label2:   Value two".data] from by decide]
  rw [addColorsLines_example_eval]
  decide

/-- C6 (amended): the layout/coloring scan emits at most the number of
its input lines plus two border lines for each rendered table block. -/
theorem add_colors_line_count_bound (ls : List Str) :
    (addColorsLines ls).length ≤ ls.length + 2 * blockCount ls :=
  addColorsLines_le_aux ls.length ls (Nat.le_refl _)

theorem stripUrlsWith_nil (p : Char → Bool) : stripUrlsWith p [] = [] := by
  simp only [stripUrlsWith]

theorem stripUrlsWith_cons_none {p : Char → Bool} {c : Char} {cs : Str}
    (h : matchUrl p (c :: cs) = none) :
    stripUrlsWith p (c :: cs) = c :: stripUrlsWith p cs := by
  rw [stripUrlsWith]
  split
  · rename_i r hr
    rw [h] at hr
    cases hr
  · rfl

theorem stripUrlsWith_cons_some {p : Char → Bool} {c : Char} {cs r : Str}
    (h : matchUrl p (c :: cs) = some r) :
    stripUrlsWith p (c :: cs) = stripUrlsWith p r := by
  rw [stripUrlsWith]
  split
  · rename_i r2 hr
    rw [h] at hr
    cases hr
    rfl
  · rename_i hr
    rw [h] at hr
    cases hr

theorem matchUrl_nil (p : Char → Bool) : matchUrl p [] = none := rfl

theorem stripUrlsWith_eq_of_match {p : Char → Bool} {s r : Str}
    (h : matchUrl p s = some r) : stripUrlsWith p s = stripUrlsWith p r := by
  cases s with
  | nil => rw [matchUrl_nil] at h; cases h
  | cons c cs => exact stripUrlsWith_cons_some h

theorem stripUrlsWith_id_of_all_none {p : Char → Bool} :
    ∀ {s : Str}, (∀ t ∈ s.tails, matchUrl p t = none) → stripUrlsWith p s = s := by
  intro s
  induction s with
  | nil => intro hall; exact stripUrlsWith_nil p
  | cons c cs ih =>
    intro hall
    have hhead : matchUrl p (c :: cs) = none := by
      apply hall
      rw [List.tails_cons]
      exact List.mem_cons_self _ _
    rw [stripUrlsWith_cons_none hhead]
    congr 1
    apply ih
    intro t ht
    apply hall
    rw [List.tails_cons]
    exact List.mem_cons_of_mem _ ht

theorem takeWhile_congr_chars {p q : Char → Bool} :
    ∀ {l : Str}, (∀ c ∈ l, p c = q c) → l.takeWhile p = l.takeWhile q := by
  intro l
  induction l with
  | nil => intro h; rfl
  | cons c cs ih =>
    intro h
    have hc : p c = q c := h c (List.mem_cons_self _ _)
    have htl : ∀ x ∈ cs, p x = q x := fun x hx => h x (List.mem_cons_of_mem _ hx)
    simp only [List.takeWhile_cons, hc]
    split
    · rw [ih htl]
    · rfl

theorem dropWhile_congr_chars {p q : Char → Bool} :
    ∀ {l : Str}, (∀ c ∈ l, p c = q c) → l.dropWhile p = l.dropWhile q := by
  intro l
  induction l with
  | nil => intro h; rfl
  | cons c cs ih =>
    intro h
    have hc : p c = q c := h c (List.mem_cons_self _ _)
    have htl : ∀ x ∈ cs, p x = q x := fun x hx => h x (List.mem_cons_of_mem _ hx)
    simp only [List.dropWhile_cons, hc]
    split
    · exact ih htl
    · rfl

theorem matchUrl_congr {p q : Char → Bool} {s : Str}
    (h : ∀ c ∈ s, p c = q c) : matchUrl p s = matchUrl q s := by
  have h8 : ∀ c ∈ s.drop 8, p c = q c := fun c hc =>
    h c ((List.drop_sublist 8 s).mem hc)
  have h7 : ∀ c ∈ s.drop 7, p c = q c := fun c hc =>
    h c ((List.drop_sublist 7 s).mem hc)
  unfold matchUrl
  rw [takeWhile_congr_chars h8, dropWhile_congr_chars h8,
      takeWhile_congr_chars h7, dropWhile_congr_chars h7]

theorem stripUrlsWith_congr {p q : Char → Bool} :
    ∀ n (s : Str), s.length ≤ n → (∀ c ∈ s, p c = q c) →
      stripUrlsWith p s = stripUrlsWith q s := by
  intro n
  induction n with
  | zero =>
    intro s hlen hpq
    have : s = [] := by cases s with
      | nil => rfl
      | cons a as => simp at hlen
    subst this
    rw [stripUrlsWith_nil, stripUrlsWith_nil]
  | succ n ih =>
    intro s hlen hpq
    cases s with
    | nil => rw [stripUrlsWith_nil, stripUrlsWith_nil]
    | cons c cs =>
      have hm := matchUrl_congr hpq
      cases hmc : matchUrl p (c :: cs) with
      | none =>
        rw [stripUrlsWith_cons_none hmc, stripUrlsWith_cons_none (hm ▸ hmc)]
        congr 1
        exact ih cs (by simp only [List.length_cons] at hlen; omega)
          (fun x hx => hpq x (List.mem_cons_of_mem _ hx))
      | some r =>
        rw [stripUrlsWith_cons_some hmc, stripUrlsWith_cons_some (hm ▸ hmc)]
        have hlt := matchUrl_some_len hmc
        have hsub : ∀ x ∈ r, p x = q x := by
          intro x hx
          apply hpq
          unfold matchUrl at hmc
          split at hmc
          · split at hmc
            · have : r = (List.drop 8 (c :: cs)).dropWhile p := by
                simpa using hmc.symm
              subst this
              exact ((List.dropWhile_sublist p).trans (List.drop_sublist _ _)).mem hx
            · cases hmc
          · split at hmc
            · split at hmc
              · have : r = (List.drop 7 (c :: cs)).dropWhile p := by
                  simpa using hmc.symm
                subst this
                exact ((List.dropWhile_sublist p).trans (List.drop_sublist _ _)).mem hx
              · cases hmc
            · cases hmc
        exact ih r (by simp only [List.length_cons] at hlen hlt ⊢; omega) hsub

/-- C5 counterexample: the two long-URL passes are not the same
function: on a long URL containing a closing parenthesis the plain-text
pass removes the URL while the markdown pass leaves it intact. -/
theorem strip_long_urls_ne_md_cex :
    strip_long_urls "https://aaaaaaaaaaaaaaaaaaaa)aaaaaaaaaaaaaaaaaaaa".data ≠
      mdLongUrlStep "https://aaaaaaaaaaaaaaaaaaaa)aaaaaaaaaaaaaaaaaaaa".data := by
  have h1 : strip_long_urls "https://aaaaaaaaaaaaaaaaaaaa)aaaaaaaaaaaaaaaaaaaa".data = [] := by
    unfold strip_long_urls
    rw [stripUrlsWith_eq_of_match
      (show matchUrl urlWsBody
          "https://aaaaaaaaaaaaaaaaaaaa)aaaaaaaaaaaaaaaaaaaa".data = some []
        from by decide), stripUrlsWith_nil]
  have h2 : mdLongUrlStep "https://aaaaaaaaaaaaaaaaaaaa)aaaaaaaaaaaaaaaaaaaa".data =
      "https://aaaaaaaaaaaaaaaaaaaa)aaaaaaaaaaaaaaaaaaaa".data := by
    unfold mdLongUrlStep
    apply stripUrlsWith_id_of_all_none
    decide
  rw [h1, h2]
  decide

/-- C5 (amended): the two long-URL transforms differ only in their
character classes (`[^\s]` against `[^\s\)\]]`): on every input string
containing no `)` and no `]` they produce identical output. -/
theorem strip_long_urls_eq_md (s : Str) (h : ∀ c ∈ s, c ≠ ')' ∧ c ≠ ']') :
    strip_long_urls s = mdLongUrlStep s := by
  unfold strip_long_urls mdLongUrlStep
  apply stripUrlsWith_congr s.length s (Nat.le_refl _)
  intro c hc
  have hcp := h c hc
  simp [urlWsBody, mdUrlBody, hcp.1, hcp.2]

theorem strip_long_urls_eq_md_witness :
    (∀ c ∈ "see https://x tail".data, c ≠ ')' ∧ c ≠ ']') ∧
    strip_long_urls "see https://x tail".data = mdLongUrlStep "see https://x tail".data :=
  ⟨by decide, strip_long_urls_eq_md _ (by decide)⟩

theorem has3_cons (c : Char) (t : Str) :
    has3 (c :: t) = ((c = '\n' && startsWith t "\n\n".data) || has3 t) := rfl

theorem has3_cons_ne {c : Char} (hc : ¬ c = '\n') (t : Str) :
    has3 (c :: t) = has3 t := by
  simp [has3_cons, hc]

theorem startsWith_nn_of_ne {c : Char} (hc : ¬ c = '\n') (t : Str) :
    startsWith (c :: t) "\n\n".data = false := by
  simp [startsWith, hc]

theorem collapseGo_no3 (s : Str) : ∀ n, has3 (collapseGo n s) = false := by
  induction s with
  | nil =>
    intro n
    rcases n with _ | _ | n
    · simp [collapseGo, has3]
    · simp [collapseGo, has3, startsWith]
    · rw [collapseGo, show min (n + 2) 2 = 2 from by omega]
      simp [has3, startsWith]
  | cons c cs ih =>
    intro n
    by_cases hc : c = '\n'
    · subst hc
      rw [show collapseGo n ('\n' :: cs) = collapseGo (n + 1) cs from by
        rw [collapseGo]; simp]
      exact ih (n + 1)
    · rw [show collapseGo n (c :: cs) =
          List.replicate (min n 2) '\n' ++ c :: collapseGo 0 cs from by
        rw [collapseGo]; simp [hc]]
      rcases n with _ | _ | n
      · rw [show min 0 2 = 0 from rfl]
        simp only [List.replicate, List.nil_append]
        rw [has3_cons_ne hc]
        exact ih 0
      · rw [show min 1 2 = 1 from rfl]
        simp only [List.replicate, List.nil_append, List.cons_append]
        rw [has3_cons, startsWith_nn_of_ne hc, has3_cons_ne hc]
        simp [ih 0]
      · rw [show min (n + 2) 2 = 2 from by omega]
        simp only [List.replicate, List.nil_append, List.cons_append]
        rw [has3_cons, has3_cons, has3_cons_ne hc,
            show startsWith ('\n' :: c :: collapseGo 0 cs) "\n\n".data = false from by
              simp [startsWith, hc],
            startsWith_nn_of_ne hc]
        simp [ih 0]

theorem collapseGo_replicate (r : Str) : ∀ (k n : Nat),
    collapseGo n (List.replicate k '\n' ++ r) = collapseGo (n + k) r := by
  intro k
  induction k with
  | zero => intro n; simp
  | succ k ih =>
    intro n
    rw [show List.replicate (k + 1) '\n' = '\n' :: List.replicate k '\n' from rfl]
    rw [List.cons_append, show collapseGo n ('\n' :: (List.replicate k '\n' ++ r)) =
        collapseGo (n + 1) (List.replicate k '\n' ++ r) from by rw [collapseGo]; simp]
    rw [ih (n + 1)]
    congr 1
    omega

/-- C9: after the blank-line collapse step (`\n{3,}` replaced by two
newlines) no run of three or more consecutive newline characters
survives, and a maximal run of three or more newlines comes out as
exactly two. -/
theorem collapseNl_no3 (s : Str) :
    has3 (collapseNl s) = false ∧
    ∀ k, 3 ≤ k → collapseNl (List.replicate k '\n') = "\n\n".data := by
  refine ⟨collapseGo_no3 s 0, ?_⟩
  intro k hk
  unfold collapseNl
  rw [show List.replicate k '\n' = List.replicate k '\n' ++ [] from by simp,
      collapseGo_replicate, collapseGo]
  rw [show min (0 + k) 2 = 2 from by omega]
  rfl

theorem collapseNl_no3_witness :
    (3 ≤ 4 ∧ collapseNl (List.replicate 4 '\n') = "\n\n".data) ∧
    has3 (collapseNl "a\n\n\n\nb".data) = false :=
  ⟨⟨by decide, (collapseNl_no3 []).2 4 (by decide)⟩,
   (collapseNl_no3 "a\n\n\n\nb".data).1⟩

theorem saGo0_append_noesc {a : Str} (h : ∀ c ∈ a, c ≠ '\x1b') (t : Str) :
    saGo 0 (a ++ t) = a ++ saGo 0 t := by
  induction a with
  | nil => simp
  | cons c cs ih =>
    have hc : c ≠ '\x1b' := h c (List.mem_cons_self _ _)
    rw [List.cons_append, show saGo 0 (c :: (cs ++ t)) = c :: saGo 0 (cs ++ t) from by
      rw [saGo]; simp [hc]]
    rw [ih (fun x hx => h x (List.mem_cons_of_mem _ hx))]
    rfl

theorem saGo0_yellow (t : Str) : saGo 0 (YELLOW ++ t) = saGo 0 t := rfl

theorem saGo0_reset (t : Str) : saGo 0 (RESET ++ t) = saGo 0 t := rfl

theorem rustTrim_eq_self_of_nows {s : Str} (h : ∀ c ∈ s, isRustWs c = false) :
    rustTrim s = s := by
  unfold rustTrim
  rw [List.dropWhile_eq_self_iff.mpr ?hd]
  case hd =>
    intro hne
    cases s with
    | nil => simp at hne
    | cons c cs => simpa using h c (List.mem_cons_self _ _)
  induction s with
  | nil => rfl
  | cons c cs ih =>
    rw [dropWsEnd, ih (fun x hx => h x (List.mem_cons_of_mem _ hx))]
    simp [h c (List.mem_cons_self _ _)]

theorem ftGo_strip : ∀ (cs cw : Str),
    (∀ c ∈ cs, (isRustWs c = true → (c = ' ' ∨ c = '\t')) ∧ c ≠ '\x1b') →
    (∀ c ∈ cw, isRustWs c = false ∧ c ≠ '\x1b') →
    stripAnsi (ftGo cs cw) = cw ++ cs := by
  intro cs
  induction cs with
  | nil =>
    intro cw hcs hcw
    unfold ftGo stripAnsi
    rw [show cw = cw ++ ([] : Str) from by simp]
    rw [saGo0_append_noesc (fun c hc => (hcw c (by simpa using hc)).2)]
    simp [saGo]
  | cons c cs ih =>
    intro cw hcs hcw
    have hc := hcs c (List.mem_cons_self _ _)
    have hcs2 : ∀ x ∈ cs, (isRustWs x = true → (x = ' ' ∨ x = '\t')) ∧ x ≠ '\x1b' :=
      fun x hx => hcs x (List.mem_cons_of_mem _ hx)
    rw [ftGo]
    by_cases hcolon :
        (c = ':' && !(rustTrim (cw ++ [c])).isEmpty && labelCond (rustTrim (cw ++ [c]))) = true
    · rw [if_pos hcolon]
      have hceq : c = ':' := by
        simp only [Bool.and_eq_true, decide_eq_true_eq] at hcolon
        exact hcolon.1.1
      have hnows : ∀ x ∈ cw ++ [c], isRustWs x = false := by
        intro x hx
        rcases List.mem_append.mp hx with hx | hx
        · exact (hcw x hx).1
        · simp only [List.mem_singleton] at hx
          subst hx hceq
          decide
      have hnoesc : ∀ x ∈ cw ++ [c], x ≠ '\x1b' := by
        intro x hx
        rcases List.mem_append.mp hx with hx | hx
        · exact (hcw x hx).2
        · simp only [List.mem_singleton] at hx
          subst hx hceq
          decide
      rw [rustTrim_eq_self_of_nows hnows]
      unfold stripAnsi
      rw [show YELLOW ++ (cw ++ [c]) ++ RESET ++ ftGo cs [] =
          YELLOW ++ ((cw ++ [c]) ++ (RESET ++ ftGo cs [])) from by simp]
      rw [saGo0_yellow, saGo0_append_noesc hnoesc, saGo0_reset]
      have := ih [] hcs2 (by simp)
      unfold stripAnsi at this
      rw [this]
      simp
    · rw [if_neg hcolon]
      by_cases hsp : (c = ' ' || c = '\t') = true
      · rw [if_pos hsp]
        have hnoesc : ∀ x ∈ cw ++ [c], x ≠ '\x1b' := by
          intro x hx
          rcases List.mem_append.mp hx with hx | hx
          · exact (hcw x hx).2
          · simp only [List.mem_singleton] at hx
            subst hx
            rcases Bool.or_eq_true _ _ |>.mp hsp with h1 | h1
            · rw [decide_eq_true_eq.mp h1]; decide
            · rw [decide_eq_true_eq.mp h1]; decide
        unfold stripAnsi
        rw [show (cw ++ [c]) ++ ftGo cs [] = (cw ++ [c]) ++ ftGo cs [] from rfl]
        rw [saGo0_append_noesc hnoesc]
        have := ih [] hcs2 (by simp)
        unfold stripAnsi at this
        rw [this]
        simp
      · rw [if_neg hsp]
        have hcw2 : ∀ x ∈ cw ++ [c], isRustWs x = false ∧ x ≠ '\x1b' := by
          intro x hx
          rcases List.mem_append.mp hx with hx | hx
          · exact hcw x hx
          · simp only [List.mem_singleton] at hx
            subst hx
            refine ⟨?_, hc.2⟩
            by_cases hws : isRustWs x = true
            · rcases hc.1 hws with h1 | h1 <;> subst h1 <;> simp at hsp
            · simpa using hws
        rw [ih (cw ++ [c]) hcs2 hcw2]
        simp

/-- C10 counterexample: `format_table_row` is not purely insertive: a
label word preceded by a non-breaking space loses that character, because
the source pushes the `trim()`med word; stripping the ANSI sequences from
the output does not restore the original line. -/
theorem format_table_row_strip_cex :
    stripAnsi (format_table_row (Char.ofNat 0xA0 :: "ab: value".data)) ≠
      Char.ofNat 0xA0 :: "ab: value".data := by
  decide

/-- C10 (amended): for every line whose whitespace characters are only
spaces and tabs and which contains no ESC character, deleting every ANSI
SGR escape sequence from `format_table_row line` yields exactly the
original line. -/
theorem format_table_row_strip (line : Str)
    (h : ∀ c ∈ line, (isRustWs c = true → (c = ' ' ∨ c = '\t')) ∧ c ≠ '\x1b') :
    stripAnsi (format_table_row line) = line := by
  unfold format_table_row
  rw [ftGo_strip line [] h (by simp)]
  simp

theorem format_table_row_strip_witness :
    (∀ c ∈ "Label:  value here".data,
        (isRustWs c = true → (c = ' ' ∨ c = '\t')) ∧ c ≠ '\x1b') ∧
    stripAnsi (format_table_row "Label:  value here".data) = "Label:  value here".data :=
  ⟨by decide, format_table_row_strip _ (by decide)⟩

theorem startsWith_sub {s p : Str} (h : startsWith s p = true) :
    ∀ c ∈ p, c ∈ s := by
  induction p generalizing s with
  | nil => intro c hc; cases hc
  | cons a as ih =>
    cases s with
    | nil => simp [startsWith] at h
    | cons b bs =>
      simp only [startsWith, Bool.and_eq_true, decide_eq_true_eq] at h
      intro c hc
      rcases List.mem_cons.mp hc with rfl | hc
      · rw [h.1]; exact List.mem_cons_self _ _
      · exact List.mem_cons_of_mem _ (ih h.2 c hc)

theorem dropWhile_cons_pred {p : Char → Bool} :
    ∀ {l : Str} {y : Char} {ys : Str}, l.dropWhile p = y :: ys → p y = false := by
  intro l
  induction l with
  | nil => intro y ys h; cases h
  | cons c cs ih =>
    intro y ys h
    rw [List.dropWhile_cons] at h
    split at h
    · exact ih h
    · rename_i hp
      cases h
      simpa using hp

theorem fmMatchAt_none {s : Str} (h : ∀ c ∈ s, ¬ c = '-') : fmMatchAt s = none := by
  unfold fmMatchAt
  rw [if_neg]
  intro hsw
  exact h '-' (startsWith_sub hsw '-' (by decide)) rfl

theorem fmGo_cons_nil {c : Char} {cs : Str} (hm : fmMatchAt (c :: cs) = none)
    (hd : (c :: cs).dropWhile (fun x => x ≠ '\n') = []) : fmGo (c :: cs) = c :: cs := by
  rw [fmGo, hm]
  dsimp only
  split
  · rfl
  · rename_i x tail hx
    rw [hd] at hx
    cases hx

theorem fmGo_cons_step {c : Char} {cs : Str} {x : Char} {tail : Str}
    (hm : fmMatchAt (c :: cs) = none)
    (hd : (c :: cs).dropWhile (fun y => y ≠ '\n') = x :: tail) :
    fmGo (c :: cs) = (c :: cs).takeWhile (fun y => y ≠ '\n') ++ '\n' :: fmGo tail := by
  rw [fmGo, hm]
  dsimp only
  split
  · rename_i hx
    rw [hd] at hx
    cases hx
  · rename_i y tail2 hx
    rw [hd] at hx
    cases hx
    rfl

theorem fmGo_id : ∀ (n : Nat) (s : Str), s.length ≤ n → (∀ c ∈ s, ¬ c = '-') →
    fmGo s = s := by
  intro n
  induction n with
  | zero =>
    intro s hlen hs
    have : s = [] := by cases s with
      | nil => rfl
      | cons a as => simp at hlen
    subst this
    rw [fmGo]
  | succ n ih =>
    intro s hlen hs
    cases s with
    | nil => rw [fmGo]
    | cons c cs =>
      have hm := fmMatchAt_none hs
      cases hd : (c :: cs).dropWhile (fun x => x ≠ '\n') with
      | nil => exact fmGo_cons_nil hm hd
      | cons x tail =>
        have hx : x = '\n' := by
          have := dropWhile_cons_pred hd
          simpa using this
        subst hx
        rw [fmGo_cons_step hm hd]
        have htail : tail.length ≤ n := by
          have h1 : ((c :: cs).dropWhile (fun x => x ≠ '\n')).length ≤ (c :: cs).length :=
            dropWhile_len_le _ _
          rw [hd] at h1
          simp only [List.length_cons] at h1 hlen
          omega
        have hsub : ∀ y ∈ tail, ¬ y = '-' := by
          intro y hy
          apply hs
          have : y ∈ (c :: cs).dropWhile (fun x => x ≠ '\n') := by
            rw [hd]; exact List.mem_cons_of_mem _ hy
          exact (List.dropWhile_sublist _).mem this
        rw [ih tail htail hsub]
        rw [show ('\n' :: tail) = (c :: cs).dropWhile (fun x => x ≠ '\n') from hd.symm]
        exact List.takeWhile_append_dropWhile _ _

theorem dashesGo_cons_keep {c : Char} {cs : Str}
    (h1 : ¬ startsWith (c :: cs) "---\n".data = true)
    (h2 : ¬ (c :: cs) = "---".data)
    (hd : (c :: cs).dropWhile (fun x => x ≠ '\n') = []) : dashesGo (c :: cs) = c :: cs := by
  rw [dashesGo, if_neg h1, if_neg h2]
  split
  · rfl
  · rename_i x tail hx
    rw [hd] at hx
    cases hx

theorem dashesGo_cons_step {c : Char} {cs : Str} {x : Char} {tail : Str}
    (h1 : ¬ startsWith (c :: cs) "---\n".data = true)
    (h2 : ¬ (c :: cs) = "---".data)
    (hd : (c :: cs).dropWhile (fun y => y ≠ '\n') = x :: tail) :
    dashesGo (c :: cs) =
      (c :: cs).takeWhile (fun y => y ≠ '\n') ++ '\n' :: dashesGo tail := by
  rw [dashesGo, if_neg h1, if_neg h2]
  split
  · rename_i hx
    rw [hd] at hx
    cases hx
  · rename_i y tail2 hx
    rw [hd] at hx
    cases hx
    rfl

theorem dashesGo_id : ∀ (n : Nat) (s : Str), s.length ≤ n → (∀ c ∈ s, ¬ c = '-') →
    dashesGo s = s := by
  intro n
  induction n with
  | zero =>
    intro s hlen hs
    have : s = [] := by cases s with
      | nil => rfl
      | cons a as => simp at hlen
    subst this
    rw [dashesGo]
  | succ n ih =>
    intro s hlen hs
    cases s with
    | nil => rw [dashesGo]
    | cons c cs =>
      have h1 : ¬ startsWith (c :: cs) "---\n".data = true := by
        intro hsw
        exact hs '-' (startsWith_sub hsw '-' (by decide)) rfl
      have h2 : ¬ (c :: cs) = "---".data := by
        intro he
        exact hs '-' (by rw [he]; decide) rfl
      cases hd : (c :: cs).dropWhile (fun x => x ≠ '\n') with
      | nil => exact dashesGo_cons_keep h1 h2 hd
      | cons x tail =>
        have hx : x = '\n' := by
          have := dropWhile_cons_pred hd
          simpa using this
        subst hx
        rw [dashesGo_cons_step h1 h2 hd]
        have htail : tail.length ≤ n := by
          have hl := dropWhile_len_le (fun x => decide (x ≠ '\n')) (c :: cs)
          rw [hd] at hl
          simp only [List.length_cons] at hl hlen
          omega
        have hsub : ∀ y ∈ tail, ¬ y = '-' := by
          intro y hy
          apply hs
          have : y ∈ (c :: cs).dropWhile (fun x => x ≠ '\n') := by
            rw [hd]; exact List.mem_cons_of_mem _ hy
          exact (List.dropWhile_sublist _).mem this
        rw [ih tail htail hsub]
        rw [show ('\n' :: tail) = (c :: cs).dropWhile (fun x => x ≠ '\n') from hd.symm]
        exact List.takeWhile_append_dropWhile _ _

/-- C7 counterexample: `clean_markdown` is not idempotent: the
empty-cell collapse (`\|\s*\|` to `|`) does not rescan its own
replacement, so `"| | | x"` cleans to `"| | x"` and then to `"| x"`. -/
theorem clean_markdown_not_idem_cex :
    clean_markdown (clean_markdown "| | | x".data false) false ≠
      clean_markdown "| | | x".data false := by
  have h1 : clean_markdown "| | | x".data false = "| | x".data := by
    unfold clean_markdown
    dsimp only
    rw [fmGo_id 7 _ (by decide) (by decide), dashesGo_id 7 _ (by decide) (by decide)]
    decide
  have h2 : clean_markdown "| | x".data false = "| x".data := by
    unfold clean_markdown
    dsimp only
    rw [fmGo_id 5 _ (by decide) (by decide), dashesGo_id 5 _ (by decide) (by decide)]
    decide
  rw [h1, h2]
  decide

theorem linkMatchAt_cons_ne {urlOk : Str → Bool} {c : Char} {cs : Str}
    (hc : ¬ c = '[') : linkMatchAt urlOk (c :: cs) = none := by
  unfold linkMatchAt
  split
  · rename_i cs2 heq
    injection heq with hh ht
    exact absurd hh hc
  · rfl

theorem linkScan_cons_none {urlOk : Str → Bool} {c : Char} {cs : Str}
    (h : linkMatchAt urlOk (c :: cs) = none) :
    linkScan urlOk (c :: cs) = c :: linkScan urlOk cs := by
  rw [linkScan]
  split
  · rename_i rep rest hr
    rw [h] at hr
    cases hr
  · rfl

theorem linkScan_id {urlOk : Str → Bool} : ∀ (n : Nat) (s : Str), s.length ≤ n →
    (∀ c ∈ s, ¬ c = '[') → linkScan urlOk s = s := by
  intro n
  induction n with
  | zero =>
    intro s hlen hs
    have : s = [] := by cases s with
      | nil => rfl
      | cons a as => simp at hlen
    subst this
    rw [linkScan]
  | succ n ih =>
    intro s hlen hs
    cases s with
    | nil => rw [linkScan]
    | cons c cs =>
      rw [linkScan_cons_none (linkMatchAt_cons_ne (hs c (List.mem_cons_self _ _)))]
      congr 1
      simp only [List.length_cons] at hlen
      exact ih cs (by omega) (fun x hx => hs x (List.mem_cons_of_mem _ hx))

theorem bareMatchAt_cons_ne {c : Char} {cs : Str} (hc : ¬ c = '<') :
    bareMatchAt (c :: cs) = none := by
  unfold bareMatchAt
  split
  · rename_i cs2 heq
    injection heq with hh ht
    exact absurd hh hc
  · rfl

theorem bareScan_cons_none {c : Char} {cs : Str}
    (h : bareMatchAt (c :: cs) = none) :
    bareScan (c :: cs) = c :: bareScan cs := by
  rw [bareScan]
  split
  · rename_i rest hr
    rw [h] at hr
    cases hr
  · rfl

theorem bareScan_id : ∀ (n : Nat) (s : Str), s.length ≤ n →
    (∀ c ∈ s, ¬ c = '<') → bareScan s = s := by
  intro n
  induction n with
  | zero =>
    intro s hlen hs
    have : s = [] := by cases s with
      | nil => rfl
      | cons a as => simp at hlen
    subst this
    rw [bareScan]
  | succ n ih =>
    intro s hlen hs
    cases s with
    | nil => rw [bareScan]
    | cons c cs =>
      rw [bareScan_cons_none (bareMatchAt_cons_ne (hs c (List.mem_cons_self _ _)))]
      congr 1
      simp only [List.length_cons] at hlen
      exact ih cs (by omega) (fun x hx => hs x (List.mem_cons_of_mem _ hx))

theorem matchUrl_none_no_slash {p : Char → Bool} {t : Str}
    (h : ∀ c ∈ t, ¬ c = '/') : matchUrl p t = none := by
  unfold matchUrl
  rw [if_neg (fun hsw => h '/' (startsWith_sub hsw '/' (by decide)) rfl),
      if_neg (fun hsw => h '/' (startsWith_sub hsw '/' (by decide)) rfl)]

theorem stripUrlsWith_id_no_slash {p : Char → Bool} {s : Str}
    (h : ∀ c ∈ s, ¬ c = '/') : stripUrlsWith p s = s := by
  apply stripUrlsWith_id_of_all_none
  intro t ht
  apply matchUrl_none_no_slash
  intro c hc
  exact h c (((List.mem_tails _ _).mp ht).sublist.mem hc)

theorem ecGo_id : ∀ {s : Str}, (∀ c ∈ s, ¬ c = '|') → ecGo none s = s := by
  intro s
  induction s with
  | nil => intro h; rfl
  | cons c cs ih =>
    intro h
    have hc : ¬ c = '|' := h c (List.mem_cons_self _ _)
    rw [show ecGo none (c :: cs) = c :: ecGo none cs from by
      simp only [ecGo]; rw [if_neg hc]]
    rw [ih (fun x hx => h x (List.mem_cons_of_mem _ hx))]

theorem listCellLineMap_id {line : Str} (h : ∀ c ∈ line, ¬ c = '-') :
    listCellLineMap line = line := by
  unfold listCellLineMap
  split
  · exact absurd rfl (h '-' (List.mem_cons_self _ _))
  · rfl

theorem singleCellLineMap_id {line : Str} (h : ∀ c ∈ line, ¬ c = '|') :
    singleCellLineMap line = line := by
  unfold singleCellLineMap
  split
  · exact absurd rfl (h '|' (List.mem_cons_self _ _))
  · rfl

theorem mem_of_head? {l : Str} {y : Char} (h : l.head? = some y) : y ∈ l := by
  cases l with
  | nil => cases h
  | cons a as =>
    simp only [List.head?_cons, Option.some.injEq] at h
    rw [h]
    exact List.mem_cons_self _ _

theorem emptyTableLine_false {line : Str}
    (h : ∀ c ∈ line, ¬ c = '|' ∧ ¬ c = '-') : emptyTableLine line = false := by
  unfold emptyTableLine
  have hd : ¬ line.head? = some '-' := by
    intro hh
    exact (h '-' (mem_of_head? hh)).2 rfl
  rw [if_neg hd]
  dsimp only
  rw [if_neg]
  intro hh
  exact (h '|' ((List.dropWhile_sublist _).mem (mem_of_head? hh))).1 rfl

theorem sepGo_id : ∀ (lines : List Str) (b1 b2 : Bool),
    (∀ l ∈ lines, l.head? ≠ some '|') → sepGo lines b1 b2 = lines := by
  intro lines
  induction lines with
  | nil => intro b1 b2 h; rfl
  | cons l ls ih =>
    intro b1 b2 h
    have hl : l.head? ≠ some '|' := h l (List.mem_cons_self _ _)
    rw [sepGo]
    rw [if_neg (by simp [hl])]
    rw [ih false false (fun x hx => h x (List.mem_cons_of_mem _ hx))]

theorem removeInvisible_id {s : Str} (h : ∀ c ∈ s, invisibles.contains c = false) :
    removeInvisible s = s := by
  unfold removeInvisible
  apply List.filter_eq_self.mpr
  intro a ha
  simpa using h a ha

theorem splitNl_ne_nil (s : Str) : splitNl s ≠ [] := by
  cases s with
  | nil => simp [splitNl]
  | cons c cs =>
    unfold splitNl
    split
    · simp
    · split <;> simp

theorem joinNl_splitNl (s : Str) : joinNl (splitNl s) = s := by
  induction s with
  | nil => rfl
  | cons c cs ih =>
    unfold splitNl
    by_cases hc : c = '\n'
    · rw [if_pos hc]
      cases hsp : splitNl cs with
      | nil => exact absurd hsp (splitNl_ne_nil cs)
      | cons p ps =>
        rw [hsp] at ih
        rw [show joinNl ([] :: p :: ps) = [] ++ '\n' :: joinNl (p :: ps) from rfl]
        rw [ih]
        simp [hc]
    · rw [if_neg hc]
      cases hsp : splitNl cs with
      | nil => exact absurd hsp (splitNl_ne_nil cs)
      | cons p ps =>
        rw [hsp] at ih
        dsimp only
        cases ps with
        | nil =>
          rw [show joinNl [c :: p] = c :: p from rfl]
          rw [show joinNl [p] = p from rfl] at ih
          rw [ih]
        | cons q qs =>
          rw [show joinNl ((c :: p) :: q :: qs) = (c :: p) ++ '\n' :: joinNl (q :: qs)
            from rfl]
          rw [show joinNl (p :: q :: qs) = p ++ '\n' :: joinNl (q :: qs) from rfl] at ih
          rw [List.cons_append, ih]

theorem mem_splitNl {s : Str} : ∀ p ∈ splitNl s, ∀ c ∈ p, c ∈ s := by
  induction s with
  | nil =>
    intro p hp c hc
    simp [splitNl] at hp
    subst hp
    cases hc
  | cons a as ih =>
    intro p hp c hc
    unfold splitNl at hp
    by_cases ha : a = '\n'
    · rw [if_pos ha] at hp
      rcases List.mem_cons.mp hp with rfl | hp
      · cases hc
      · exact List.mem_cons_of_mem _ (ih p hp c hc)
    · rw [if_neg ha] at hp
      cases hsp : splitNl as with
      | nil => exact absurd hsp (splitNl_ne_nil as)
      | cons q qs =>
        rw [hsp] at hp
        rcases List.mem_cons.mp hp with rfl | hp
        · rcases List.mem_cons.mp hc with rfl | hc2
          · exact List.mem_cons_self _ _
          · exact List.mem_cons_of_mem _
              (ih q (by rw [hsp]; exact List.mem_cons_self _ _) c hc2)
        · exact List.mem_cons_of_mem _
            (ih p (by rw [hsp]; exact List.mem_cons_of_mem _ hp) c hc)

theorem getLast?_splitNl : ∀ {s : Str}, s ≠ [] → s.getLast? ≠ some '\n' →
    ¬ (splitNl s).getLast? = some [] := by
  intro s
  induction s with
  | nil => intro h; exact absurd rfl h
  | cons a as ih =>
    intro hne hlast
    unfold splitNl
    cases as with
    | nil =>
      have ha : ¬ a = '\n' := by
        intro h
        exact hlast (by simp [h])
      rw [if_neg ha]
      simp [splitNl]
    | cons b bs =>
      have hlast2 : (b :: bs).getLast? ≠ some '\n' := by
        rw [List.getLast?_cons_cons] at hlast
        exact hlast
      have ihr := ih (by simp) hlast2
      by_cases ha : a = '\n'
      · rw [if_pos ha]
        cases hsp : splitNl (b :: bs) with
        | nil => exact absurd hsp (splitNl_ne_nil _)
        | cons q qs =>
          rw [hsp] at ihr
          simpa using ihr
      · rw [if_neg ha]
        cases hsp : splitNl (b :: bs) with
        | nil => exact absurd hsp (splitNl_ne_nil _)
        | cons q qs =>
          rw [hsp] at ihr
          cases qs with
          | nil => simp
          | cons r rs =>
            rw [List.getLast?_cons_cons] at ihr ⊢
            exact ihr

theorem getLast?_mem_str {l : Str} {y : Char} (h : l.getLast? = some y) : y ∈ l := by
  cases l with
  | nil => cases h
  | cons a as =>
    rw [List.getLast?_eq_getLast _ (by simp)] at h
    simp only [Option.some.injEq] at h
    rw [← h]
    exact List.getLast_mem _

theorem nstep_id {t : Str} (hr : ∀ c ∈ t, ¬ c = '\r') (hl : ¬ t.getLast? = some '\n') :
    nstep t = t := by
  unfold nstep rustLines
  by_cases ht : t = []
  · subst ht; rfl
  · rw [if_neg ht, if_neg (getLast?_splitNl ht hl)]
    rw [show (splitNl t).map stripCr = splitNl t from ?_]
    · exact joinNl_splitNl t
    · rw [show splitNl t = (splitNl t).map id from by rw [List.map_id]]
      rw [List.map_map]
      apply List.map_congr_left
      intro p hp
      simp only [Function.comp_apply, id_eq]
      unfold stripCr
      rw [if_neg]
      intro hcr
      exact hr '\r' (mem_splitNl p (by simpa using hp) '\r' (getLast?_mem_str hcr)) rfl

theorem has3_append_right {t : Str} (h : has3 t = true) (s : Str) :
    has3 (s ++ t) = true := by
  induction s with
  | nil => simpa
  | cons c cs ih =>
    rw [List.cons_append, has3_cons, ih]
    simp

theorem startsWith_append {pat : Str} :
    ∀ {s : Str}, startsWith s pat = true → ∀ t, startsWith (s ++ t) pat = true := by
  induction pat with
  | nil => intro s h t; simp [startsWith]
  | cons p ps ih =>
    intro s h t
    cases s with
    | nil => simp [startsWith] at h
    | cons c cs =>
      simp only [startsWith, Bool.and_eq_true] at h
      rw [List.cons_append]
      simp only [startsWith, Bool.and_eq_true]
      exact ⟨h.1, ih h.2 t⟩

theorem has3_append_left {s : Str} (h : has3 s = true) (t : Str) :
    has3 (s ++ t) = true := by
  induction s with
  | nil => simp [has3] at h
  | cons c cs ih =>
    rw [has3_cons] at h
    rw [List.cons_append, has3_cons]
    rcases Bool.or_eq_true _ _ |>.mp h with h1 | h1
    · have hp := Bool.and_eq_true _ _ |>.mp h1
      rw [hp.1, startsWith_append hp.2 t]
      simp
    · rw [ih h1]
      simp

theorem dropWsEnd_decomp (u : Str) : ∃ t, u = dropWsEnd u ++ t := by
  induction u with
  | nil => exact ⟨[], rfl⟩
  | cons c cs ih =>
    rw [dropWsEnd]
    split
    · exact ⟨c :: cs, rfl⟩
    · obtain ⟨t, ht⟩ := ih
      exact ⟨t, by rw [List.cons_append, ← ht]⟩

theorem dropWsEnd_last {u : Str} : ∀ {y : Char},
    (dropWsEnd u).getLast? = some y → isRustWs y = false := by
  induction u with
  | nil => intro y h; cases h
  | cons c cs ih =>
    intro y h
    rw [dropWsEnd] at h
    split at h
    · cases h
    · rename_i hcond
      cases hr : dropWsEnd cs with
      | nil =>
        rw [hr] at h hcond
        simp only [List.getLast?_singleton, Option.some.injEq] at h
        subst h
        simpa using hcond
      | cons d ds =>
        rw [hr] at h
        rw [List.getLast?_cons_cons] at h
        exact ih (hr ▸ h)

theorem dropWsEnd_eq_self {u : Str}
    (h : ∀ y, u.getLast? = some y → isRustWs y = false) : dropWsEnd u = u := by
  induction u with
  | nil => rfl
  | cons c cs ih =>
    cases cs with
    | nil =>
      have hc := h c (by simp)
      rw [dropWsEnd]
      simp [hc, dropWsEnd]
    | cons d ds =>
      have hrec := ih (fun y hy => h y (by rw [List.getLast?_cons_cons]; exact hy))
      rw [dropWsEnd]
      rw [hrec]
      simp

theorem has3_dropWhile_false {p : Char → Bool} {u : Str} (h : has3 u = false) :
    has3 (u.dropWhile p) = false := by
  by_cases h2 : has3 (u.dropWhile p) = true
  · rw [← List.takeWhile_append_dropWhile p u, has3_append_right h2] at h
    cases h
  · simpa using h2

theorem has3_dropWsEnd_false {u : Str} (h : has3 u = false) :
    has3 (dropWsEnd u) = false := by
  by_cases h2 : has3 (dropWsEnd u) = true
  · obtain ⟨t, ht⟩ := dropWsEnd_decomp u
    rw [ht, has3_append_left h2] at h
    cases h
  · simpa using h2

theorem has3_rustTrim_false {u : Str} (h : has3 u = false) :
    has3 (rustTrim u) = false :=
  has3_dropWsEnd_false (has3_dropWhile_false h)

theorem rustTrim_head_not_ws {u : Str} {y : Char} {ys : Str}
    (h : rustTrim u = y :: ys) : isRustWs y = false := by
  unfold rustTrim at h
  obtain ⟨t, ht⟩ := dropWsEnd_decomp (u.dropWhile isRustWs)
  rw [h] at ht
  exact @dropWhile_cons_pred isRustWs u y (ys ++ t) (by rw [ht]; simp)

theorem dropWhile_eq_self_of_head {p : Char → Bool} {l : Str}
    (h : ∀ y ys, l = y :: ys → p y = false) : l.dropWhile p = l := by
  cases l with
  | nil => rfl
  | cons c cs =>
    rw [List.dropWhile_cons]
    simp [h c cs rfl]

theorem rustTrim_rustTrim (u : Str) : rustTrim (rustTrim u) = rustTrim u := by
  have hhead : (rustTrim u).dropWhile isRustWs = rustTrim u :=
    dropWhile_eq_self_of_head (fun y ys hy => rustTrim_head_not_ws hy)
  show dropWsEnd ((rustTrim u).dropWhile isRustWs) = rustTrim u
  rw [hhead]
  exact dropWsEnd_eq_self (fun y hy => dropWsEnd_last hy)

theorem rustTrim_last_not_nl (u : Str) : ¬ (rustTrim u).getLast? = some '\n' := by
  intro h
  have := dropWsEnd_last (u := u.dropWhile isRustWs) h
  simp [isRustWs] at this

theorem collapseGo_id : ∀ (u : Str) (n : Nat), n ≤ 2 →
    has3 (List.replicate n '\n' ++ u) = false →
    collapseGo n u = List.replicate n '\n' ++ u := by
  intro u
  induction u with
  | nil =>
    intro n hn h3
    rw [collapseGo, show min n 2 = n from by omega]
    simp
  | cons c cs ih =>
    intro n hn h3
    by_cases hc : c = '\n'
    · subst hc
      have hrepl : List.replicate (n + 1) '\n' ++ cs =
          List.replicate n '\n' ++ '\n' :: cs := by
        rw [List.replicate_succ']
        simp
      have hn1 : n + 1 ≤ 2 := by
        rcases Nat.lt_or_ge n 2 with h | h
        · omega
        · exfalso
          have hn2 : n = 2 := by omega
          subst hn2
          simp [List.replicate, has3_cons, startsWith] at h3
      rw [show collapseGo n ('\n' :: cs) = collapseGo (n + 1) cs from by
        rw [collapseGo]; simp]
      rw [ih (n + 1) hn1 (by rw [hrepl]; exact h3), hrepl]
    · rw [show collapseGo n (c :: cs) =
          List.replicate (min n 2) '\n' ++ c :: collapseGo 0 cs from by
        rw [collapseGo]; simp [hc]]
      rw [show min n 2 = n from by omega]
      have h3cs : has3 cs = false := by
        by_cases hcs : has3 cs = true
        · have h1 : has3 (c :: cs) = true := by
            rw [has3_cons, hcs]
            simp
          rw [has3_append_right h1] at h3
          cases h3
        · simpa using hcs
      rw [ih 0 (by omega) (by simpa using h3cs)]
      simp

theorem mem_joinNl : ∀ {ls : List Str} {c : Char}, c ∈ joinNl ls →
    (∃ l ∈ ls, c ∈ l) ∨ c = '\n' := by
  intro ls
  induction ls with
  | nil => intro c hc; cases hc
  | cons l ls2 ih =>
    intro c hc
    cases ls2 with
    | nil => exact Or.inl ⟨l, List.mem_cons_self _ _, by simpa using hc⟩
    | cons m ms =>
      rw [show joinNl (l :: m :: ms) = l ++ '\n' :: joinNl (m :: ms) from rfl] at hc
      rcases List.mem_append.mp hc with hc | hc
      · exact Or.inl ⟨l, List.mem_cons_self _ _, hc⟩
      · rcases List.mem_cons.mp hc with rfl | hc
        · exact Or.inr rfl
        · rcases ih hc with ⟨l2, hl2, hcl⟩ | h
          · exact Or.inl ⟨l2, List.mem_cons_of_mem _ hl2, hcl⟩
          · exact Or.inr h

theorem mem_rustLines_sub {t l : Str} (hl : l ∈ rustLines t) : ∀ c ∈ l, c ∈ t := by
  intro c hc
  unfold rustLines at hl
  split at hl
  · cases hl
  · rcases List.mem_map.mp hl with ⟨p, hp, hpl⟩
    have hp2 : p ∈ splitNl t := by
      split at hp
      · exact (List.dropLast_sublist _).mem hp
      · exact hp
    have hcp : c ∈ p := by
      subst hpl
      unfold stripCr at hc
      split at hc
      · exact (List.dropLast_sublist _).mem hc
      · exact hc
    exact mem_splitNl p hp2 c hcp

theorem mem_nstep {t : Str} {c : Char} (h : c ∈ nstep t) : c ∈ t ∨ c = '\n' := by
  unfold nstep at h
  rcases mem_joinNl h with ⟨l, hl, hcl⟩ | h
  · exact Or.inl (mem_rustLines_sub hl c hcl)
  · exact Or.inr h

theorem mem_collapseGo : ∀ {u : Str} {n : Nat} {c : Char},
    c ∈ collapseGo n u → c ∈ u ∨ c = '\n' := by
  intro u
  induction u with
  | nil =>
    intro n c h
    rw [collapseGo] at h
    exact Or.inr (List.eq_of_mem_replicate h)
  | cons a as ih =>
    intro n c h
    by_cases ha : a = '\n'
    · subst ha
      rw [show collapseGo n ('\n' :: as) = collapseGo (n + 1) as from by
        rw [collapseGo]; simp] at h
      rcases ih h with h | h
      · exact Or.inl (List.mem_cons_of_mem _ h)
      · exact Or.inr h
    · rw [show collapseGo n (a :: as) =
          List.replicate (min n 2) '\n' ++ a :: collapseGo 0 as from by
        rw [collapseGo]; simp [ha]] at h
      rcases List.mem_append.mp h with h | h
      · exact Or.inr (List.eq_of_mem_replicate h)
      · rcases List.mem_cons.mp h with rfl | h
        · exact Or.inl (List.mem_cons_self _ _)
        · rcases ih h with h | h
          · exact Or.inl (List.mem_cons_of_mem _ h)
          · exact Or.inr h

theorem mem_rustTrim {u : Str} {c : Char} (h : c ∈ rustTrim u) : c ∈ u := by
  unfold rustTrim at h
  obtain ⟨t, ht⟩ := dropWsEnd_decomp (u.dropWhile isRustWs)
  have h2 : c ∈ u.dropWhile isRustWs := by
    rw [ht]
    exact List.mem_append.mpr (Or.inl h)
  exact (List.dropWhile_sublist _).mem h2

theorem mdSafeChar_spec {c : Char} (h : mdSafeChar c = true) :
    ¬ c = '|' ∧ ¬ c = '-' ∧ ¬ c = '[' ∧ ¬ c = '<' ∧ ¬ c = '/' ∧ ¬ c = '\r' ∧
      invisibles.contains c = false := by
  unfold mdSafeChar at h
  simp at h
  refine ⟨by tauto, by tauto, by tauto, by tauto, by tauto, by tauto, ?_⟩
  have h7 : c ∉ invisibles := by tauto
  simpa using h7

theorem nstep_safe {s : Str} (hs : ∀ c ∈ s, mdSafeChar c = true) :
    ∀ c ∈ nstep s, mdSafeChar c = true := by
  intro c hc
  rcases mem_nstep hc with h | rfl
  · exact hs c h
  · decide

theorem rustLines_safe {s l : Str} (hs : ∀ c ∈ s, mdSafeChar c = true)
    (hl : l ∈ rustLines s) : ∀ c ∈ l, mdSafeChar c = true :=
  fun c hc => hs c (mem_rustLines_sub hl c hc)

theorem step4_safe {x : Str} (hx : ∀ c ∈ x, mdSafeChar c = true) :
    joinNl ((rustLines x).map listCellLineMap) = nstep x := by
  unfold nstep
  congr 1
  conv_rhs => rw [← List.map_id (rustLines x)]
  apply List.map_congr_left
  intro l hl
  exact listCellLineMap_id
    (fun c hc => (mdSafeChar_spec (rustLines_safe hx hl c hc)).2.1)

theorem step5_safe {x : Str} (hx : ∀ c ∈ x, mdSafeChar c = true) :
    joinNl ((rustLines x).map singleCellLineMap) = nstep x := by
  unfold nstep
  congr 1
  conv_rhs => rw [← List.map_id (rustLines x)]
  apply List.map_congr_left
  intro l hl
  exact singleCellLineMap_id
    (fun c hc => (mdSafeChar_spec (rustLines_safe hx hl c hc)).1)

theorem step7_safe {x : Str} (hx : ∀ c ∈ x, mdSafeChar c = true) :
    joinNl ((rustLines x).filter (fun l => !emptyTableLine l)) = nstep x := by
  unfold nstep
  congr 1
  apply List.filter_eq_self.mpr
  intro l hl
  have he := @emptyTableLine_false l (fun c hc =>
    ⟨(mdSafeChar_spec (rustLines_safe hx hl c hc)).1,
     (mdSafeChar_spec (rustLines_safe hx hl c hc)).2.1⟩)
  rw [he]
  rfl

theorem step9_safe {x : Str} (hx : ∀ c ∈ x, mdSafeChar c = true) :
    joinNl (sepGo (rustLines x) false false) = nstep x := by
  unfold nstep
  congr 1
  apply sepGo_id
  intro l hl hh
  exact (mdSafeChar_spec (rustLines_safe hx hl '|' (mem_of_head? hh))).1 rfl

theorem urlSteps_safe {x : Str} (hx : ∀ c ∈ x, mdSafeChar c = true) (flag : Bool) :
    (if flag then linkScan mailtoUrlOk (mdLongUrlStep (bareScan (linkScan httpUrlOk x)))
     else x) = x := by
  cases flag
  · rfl
  · have h1 : linkScan httpUrlOk x = x :=
      linkScan_id x.length x (Nat.le_refl _)
        (fun c hc => (mdSafeChar_spec (hx c hc)).2.2.1)
    rw [if_pos rfl, h1]
    have h2 : bareScan x = x :=
      bareScan_id x.length x (Nat.le_refl _)
        (fun c hc => (mdSafeChar_spec (hx c hc)).2.2.2.1)
    rw [h2]
    have h3 : mdLongUrlStep x = x := by
      unfold mdLongUrlStep
      exact stripUrlsWith_id_no_slash
        (fun c hc => (mdSafeChar_spec (hx c hc)).2.2.2.2.1)
    rw [h3]
    exact linkScan_id x.length x (Nat.le_refl _)
      (fun c hc => (mdSafeChar_spec (hx c hc)).2.2.1)

theorem clean_markdown_safe_eq (s : Str) (flag : Bool)
    (hs : ∀ c ∈ s, mdSafeChar c = true) :
    clean_markdown s flag =
      rustTrim (collapseNl (nstep (nstep (nstep (nstep s))))) := by
  have hdash : ∀ c ∈ s, ¬ c = '-' := fun c hc => (mdSafeChar_spec (hs c hc)).2.1
  have hs1 : ∀ c ∈ nstep s, mdSafeChar c = true := nstep_safe hs
  have hs2 : ∀ c ∈ nstep (nstep s), mdSafeChar c = true := nstep_safe hs1
  have hs3 : ∀ c ∈ nstep (nstep (nstep s)), mdSafeChar c = true := nstep_safe hs2
  unfold clean_markdown
  dsimp only
  rw [fmGo_id s.length s (Nat.le_refl _) hdash,
      dashesGo_id s.length s (Nat.le_refl _) hdash,
      urlSteps_safe hs flag,
      step4_safe hs,
      step5_safe hs1,
      ecGo_id (fun c hc => (mdSafeChar_spec (hs2 c hc)).1),
      step7_safe hs2,
      removeInvisible_id (fun c hc => (mdSafeChar_spec (hs3 c hc)).2.2.2.2.2.2),
      step9_safe hs3]

/-- C7 (amended): `clean_markdown` is not idempotent in general, but it
is idempotent for either flag value on every input free of the
characters the structural passes react to: `|`, `-`, `[`, `<`, `/`,
carriage return, and the invisible characters (on such input the
cleanup reduces to line normalization, blank-line collapse and
trimming, which are idempotent as a composite). -/
theorem clean_markdown_idem (s : Str) (flag : Bool)
    (hs : ∀ c ∈ s, mdSafeChar c = true) :
    clean_markdown (clean_markdown s flag) flag = clean_markdown s flag := by
  have hteq : clean_markdown s flag =
      rustTrim (collapseNl (nstep (nstep (nstep (nstep s))))) :=
    clean_markdown_safe_eq s flag hs
  have hsafe_n4 : ∀ c ∈ nstep (nstep (nstep (nstep s))), mdSafeChar c = true :=
    nstep_safe (nstep_safe (nstep_safe (nstep_safe hs)))
  have hsafe_col : ∀ c ∈ collapseNl (nstep (nstep (nstep (nstep s)))),
      mdSafeChar c = true := by
    intro c hc
    rcases mem_collapseGo hc with h | rfl
    · exact hsafe_n4 c h
    · decide
  have hst : ∀ c ∈ clean_markdown s flag, mdSafeChar c = true := by
    rw [hteq]
    intro c hc
    exact hsafe_col c (mem_rustTrim hc)
  have htrail : ¬ (clean_markdown s flag).getLast? = some '\n' := by
    rw [hteq]
    exact rustTrim_last_not_nl _
  have hno3 : has3 (clean_markdown s flag) = false := by
    rw [hteq]
    exact has3_rustTrim_false (collapseGo_no3 _ 0)
  have hrt : rustTrim (clean_markdown s flag) = clean_markdown s flag := by
    rw [hteq]
    exact rustTrim_rustTrim _
  have hcr : ∀ c ∈ clean_markdown s flag, ¬ c = '\r' :=
    fun c hc => (mdSafeChar_spec (hst c hc)).2.2.2.2.2.1
  have hn : nstep (clean_markdown s flag) = clean_markdown s flag :=
    nstep_id hcr htrail
  have hcol : collapseNl (clean_markdown s flag) = clean_markdown s flag := by
    unfold collapseNl
    have := collapseGo_id (clean_markdown s flag) 0 (by omega) (by simpa using hno3)
    simpa using this
  rw [clean_markdown_safe_eq (clean_markdown s flag) flag hst, hn, hn, hn, hn,
      hcol, hrt]

theorem clean_markdown_idem_witness :
    (∀ c ∈ "ab\n\n\n\ncd".data, mdSafeChar c = true) ∧
    clean_markdown (clean_markdown "ab\n\n\n\ncd".data false) false =
      clean_markdown "ab\n\n\n\ncd".data false :=
  ⟨by decide, clean_markdown_idem _ false (by decide)⟩

end MuttRender
